import Mathlib

/-!
Verification of the task-management core of `tudu` (src/src/App.jsx).

The development shallowly embeds the state-management core of the
application: the recurrence calculator `getNextRecurrenceDate`, the tree
path resolver `findTaskAndUpdate`, the cascading toggle helper
`toggleAllNestedTasks`, the main reducer `todoReducer`, the undo/redo
history wrapper `undoable`, and the due-date sort comparator of
`getFilteredAndSortedTodos`.

Modelling conventions:
* JavaScript dates are modelled at the precision the code uses them:
  a calendar date handled by `new Date("YYYY-MM-DD")` is its day number
  (days since 1970-01-01, the value `getTime() / 86400000`), and the
  current time `new Date()` is an arbitrary millisecond timestamp.
  The date arithmetic (`setDate`, `setMonth`, field getters) is modelled
  by the ECMA-262 `MakeDay` / `YearFromTime` / `MonthFromTime` /
  `DateFromTime` operations on day numbers.
* Values produced impurely inside the reducer (`crypto.randomUUID()`,
  `new Date()`) are threaded in explicitly: generated ids and creation
  timestamps are carried by the action, and the current time is a
  `nowMs` parameter of the reducer.
* JavaScript reference identity (`===` on arrays, used by the history
  wrapper's no-op check) is modelled by a `Bool` returned next to the
  reducer's result: `true` exactly when the JS code returns its input
  array object itself.  Every handled `todoReducer` branch builds a
  fresh array (`map`, `filter`, literals, or a freshly parsed import
  payload), so only the unrecognized-action default returns `true`.
-/

namespace Tudu

/-- Recurrence period of a task: the `'daily' | 'weekly' | 'monthly'`
strings of the source; the empty string / absent recurrence is modelled
as `Option.none` at use sites. -/
inductive Recur where
  | daily
  | weekly
  | monthly
deriving DecidableEq

/-- The flat (non-recursive) fields of a task object, as created by
`ADD_TODO` / `ADD_NESTED_TASK` in src/src/App.jsx.  Dates are day
numbers (see the module docstring), `createdAt` is a timestamp. -/
structure TaskData where
  id : Nat
  text : String
  completed : Bool
  createdAt : Int
  dueDate : Option Int
  startDate : Option Int
  priority : String
  recurrence : Option Recur
  tags : List String
  description : Option String
deriving DecidableEq

/-- A task: its flat fields together with its `subtasks` array.
(`Task` is a nested inductive because tasks nest to unbounded depth.) -/
inductive Task where
  | mk (data : TaskData) (subtasks : List Task) : Task

/-- Flat fields of a task. -/
def Task.data : Task → TaskData
  | .mk d _ => d

/-- The `subtasks` array of a task. -/
def Task.subtasks : Task → List Task
  | .mk _ s => s

@[simp] theorem Task.data_mk (d : TaskData) (s : List Task) : (Task.mk d s).data = d := rfl

@[simp] theorem Task.subtasks_mk (d : TaskData) (s : List Task) : (Task.mk d s).subtasks = s := rfl

theorem Task.eta (t : Task) : Task.mk t.data t.subtasks = t := by cases t; rfl

/-- The `id` field of a task. -/
def Task.id (t : Task) : Nat := t.data.id

/-- The `completed` flag of a task. -/
def Task.completed (t : Task) : Bool := t.data.completed

/-- The `dueDate` field of a task (a day number, `none` when absent). -/
def Task.dueDate (t : Task) : Option Int := t.data.dueDate

@[simp] theorem Task.id_mk (d : TaskData) (s : List Task) : (Task.mk d s).id = d.id := rfl

@[simp] theorem Task.completed_mk (d : TaskData) (s : List Task) :
    (Task.mk d s).completed = d.completed := rfl

@[simp] theorem Task.dueDate_mk (d : TaskData) (s : List Task) :
    (Task.mk d s).dueDate = d.dueDate := rfl

/-- Induction over a forest of tasks, descending both into `subtasks`
and along the sibling list. -/
theorem forestInduction (P : List Task → Prop) (h1 : P [])
    (h2 : ∀ d sub ts, P sub → P ts → P (Task.mk d sub :: ts)) : ∀ ts, P ts
  | [] => h1
  | .mk d sub :: ts => h2 d sub ts (forestInduction P h1 h2 sub) (forestInduction P h1 h2 ts)

/-- All tasks of a forest, at every depth (the task itself, then its
subtree, then its right siblings).  Specification device used to state
"every node in the subtree". -/
def allTasksF : List Task → List Task
  | [] => []
  | .mk d sub :: ts => Task.mk d sub :: (allTasksF sub ++ allTasksF ts)

@[simp] theorem allTasksF_nil : allTasksF [] = [] := by rw [allTasksF]

@[simp] theorem allTasksF_cons (d : TaskData) (sub ts : List Task) :
    allTasksF (Task.mk d sub :: ts) = Task.mk d sub :: (allTasksF sub ++ allTasksF ts) := by
  rw [allTasksF]

/-- Resolution of an identifier path, the specification-side reading of
§4.2's addressing scheme: walk the path components in order, scanning
each level for the first task whose `id` equals the component and
descending into its `subtasks`; the empty path addresses no task. -/
def resolvePath : List Task → List Nat → Option Task
  | _, [] => none
  | tasks, [x] => tasks.find? fun t => t.id == x
  | tasks, c :: r :: rest =>
      match tasks.find? fun t => t.id == c with
      | some t => resolvePath t.subtasks (r :: rest)
      | none => none

/-- Whether a path reaches a task somewhere in the forest when updates
descend into every task matching a component at its level (the way
`findTaskAndUpdate` walks the tree).  `false` means the path contains,
at some level, an id matching no task at that level along every branch
explored. -/
def pathHits : List Task → List Nat → Bool
  | _, [] => false
  | tasks, [x] => tasks.any fun t => t.id == x
  | tasks, c :: r :: rest => tasks.any fun t => t.id == c && pathHits t.subtasks (r :: rest)

/-- Embedding of `findTaskAndUpdate(tasks, idPath, updateFunction)`
(src/src/App.jsx lines 60-80).  The `[]` case models the JS behaviour
of destructuring an empty path: `currentId` is `undefined`, which no
task id equals, so the map touches nothing. -/
def findTaskAndUpdate (tasks : List Task) (idPath : List Nat) (updateFunction : Task → Task) :
    List Task :=
  match idPath with
  | [] => tasks.map fun task => task
  | [x] => tasks.map fun task => if task.id == x then updateFunction task else task
  | currentId :: r :: restOfPath =>
      tasks.map fun task =>
        if task.id == currentId then
          Task.mk task.data (findTaskAndUpdate task.subtasks (r :: restOfPath) updateFunction)
        else task

/-- Embedding of `toggleAllNestedTasks(tasks, completedStatus)`
(src/src/App.jsx lines 51-57): set `completed` of every node of the
forest, recursively.  The source's `map` producing `{ ...task,
completed: completedStatus, subtasks: updatedSubtasks }` is written as
a fused recursion over the list, as Lean's termination checker
requires; the `!Array.isArray` guard cannot fire in the typed model. -/
def toggleAllNestedTasks : List Task → Bool → List Task
  | [], _ => []
  | .mk d sub :: ts, completedStatus =>
      Task.mk { d with completed := completedStatus } (toggleAllNestedTasks sub completedStatus)
        :: toggleAllNestedTasks ts completedStatus

/-- Embedding of the inner helper `clearNestedCompleted` of the
`CLEAR_COMPLETED` branch (src/src/App.jsx line 182):
`tasks.filter(task => !task.completed).map(task => ({ ...task,
subtasks: clearNestedCompleted(task.subtasks) }))`, written as a fused
recursion over the list for termination. -/
def clearNestedCompleted : List Task → List Task
  | [] => []
  | .mk d sub :: ts =>
      if !d.completed then Task.mk d (clearNestedCompleted sub) :: clearNestedCompleted ts
      else clearNestedCompleted ts

/-- Modelled from the spec: "a task survives if and only if neither it
nor any of its ancestors is completed", with a removed task's children
discarded with it and survivors keeping only their surviving
descendants.  Used as the specification to compare `CLEAR_COMPLETED`
against (claim C2). -/
def specClearCompleted : List Task → List Task
  | [] => []
  | .mk d sub :: ts =>
      if d.completed then specClearCompleted ts
      else Task.mk d (specClearCompleted sub) :: specClearCompleted ts

/-- The forest with every `completed` flag erased (set to `false`) at
every depth.  Specification device: two forests with equal
`stripCompleted` images agree on everything except `completed`
flags. -/
def stripCompleted : List Task → List Task
  | [] => []
  | .mk d sub :: ts =>
      Task.mk { d with completed := false } (stripCompleted sub) :: stripCompleted ts

/-- Mapping a function that fixes every element of a list is the
identity on that list (the structural-equality content of a JS `map`
that returns each element unchanged). -/
theorem map_fix_eq_self {α : Type} (f : α → α) :
    ∀ (l : List α), (∀ a ∈ l, f a = a) → l.map f = l
  | [], _ => rfl
  | a :: l, h => by
    simp only [List.map_cons, h a (List.mem_cons_self a l)]
    rw [map_fix_eq_self f l fun b hb => h b (List.mem_cons_of_mem a hb)]

/-- A path none of whose branches reaches a task leaves
`findTaskAndUpdate` as the identity, for every update function. -/
theorem findTaskAndUpdate_no_hit (f : Task → Task) :
    ∀ (p : List Nat) (s : List Task), pathHits s p = false → findTaskAndUpdate s p f = s
  | [], s, _ => by
    simp [findTaskAndUpdate]
  | [x], s, h => by
    simp only [findTaskAndUpdate]
    apply map_fix_eq_self
    intro t ht
    rw [pathHits, List.any_eq_false] at h
    simp [h t ht]
  | c :: r :: rest, s, h => by
    simp only [findTaskAndUpdate]
    apply map_fix_eq_self
    intro t ht
    rw [pathHits, List.any_eq_false] at h
    have hc := h t ht
    by_cases hid : (t.id == c) = true
    · have hsub : pathHits t.subtasks (r :: rest) = false := by
        cases hp : pathHits t.subtasks (r :: rest)
        · rfl
        · exact absurd (by rw [hid, hp]; rfl) hc
      rw [if_pos hid, findTaskAndUpdate_no_hit f (r :: rest) t.subtasks hsub, Task.eta]
    · rw [if_neg hid]

/-- The identity update function leaves `findTaskAndUpdate` as the
identity on every forest and every path, resolving or not. -/
theorem findTaskAndUpdate_id :
    ∀ (p : List Nat) (s : List Task), findTaskAndUpdate s p (fun task => task) = s
  | [], s => by simp [findTaskAndUpdate]
  | [x], s => by
    simp only [findTaskAndUpdate]
    apply map_fix_eq_self
    intro t _
    by_cases hid : (t.id == x) = true
    · rw [if_pos hid]
    · rw [if_neg hid]
  | c :: r :: rest, s => by
    simp only [findTaskAndUpdate]
    apply map_fix_eq_self
    intro t _
    by_cases hid : (t.id == c) = true
    · rw [if_pos hid, findTaskAndUpdate_id (r :: rest) t.subtasks, Task.eta]
    · rw [if_neg hid]

/-- C6: for every forest, every transformation `f`, and every non-empty
path containing at some level an id that matches no task at that level,
`findTaskAndUpdate` returns a forest structurally equal to the input
forest: the failed operation silently leaves the state unchanged. -/
theorem claim_C6 (s : List Task) (p : List Nat) (f : Task → Task)
    (_hne : p ≠ []) (hmiss : pathHits s p = false) :
    findTaskAndUpdate s p f = s :=
  findTaskAndUpdate_no_hit f p s hmiss

/-- Flat fields of a sample task used by concrete witnesses. -/
def sampleData (i : Nat) : TaskData :=
  { id := i, text := "t", completed := false, createdAt := 0, dueDate := none,
    startDate := none, priority := "Low", recurrence := none, tags := [],
    description := none }

theorem claim_C6_witness :
    ([2] : List Nat) ≠ [] ∧
      pathHits [Task.mk (sampleData 1) []] [2] = false ∧
      findTaskAndUpdate [Task.mk (sampleData 1) []] [2]
        (fun _ => Task.mk (sampleData 7) []) = [Task.mk (sampleData 1) []] :=
  ⟨by simp, by simp [pathHits, sampleData],
    claim_C6 _ _ _ (by simp) (by simp [pathHits, sampleData])⟩

/-- C7: for every forest and every valid path resolving to a task in
it, updating along the path with the identity function returns a forest
structurally equal to the input forest. -/
theorem claim_C7 (s : List Task) (p : List Nat) (t : Task)
    (_hres : resolvePath s p = some t) :
    findTaskAndUpdate s p (fun task => task) = s :=
  findTaskAndUpdate_id p s

theorem claim_C7_witness :
    resolvePath [Task.mk (sampleData 1) []] [1] = some (Task.mk (sampleData 1) []) ∧
      findTaskAndUpdate [Task.mk (sampleData 1) []] [1] (fun task => task)
        = [Task.mk (sampleData 1) []] :=
  ⟨by simp [resolvePath, sampleData],
    claim_C7 _ _ (Task.mk (sampleData 1) []) (by simp [resolvePath, sampleData])⟩

/-- Milliseconds in a day; a calendar date with day number `d` is the
timestamp `d * msPerDay` (UTC midnight, which is what
`new Date("YYYY-MM-DD")` parses to). -/
def msPerDay : Int := 86400000

/-- Gregorian leap-year test, after ECMA-262 `DaysInYear` (`modulo`
there is sign-of-divisor remainder, which is `Int.emod`). -/
def isLeapYear (y : Int) : Bool :=
  (y % 4 == 0 && y % 100 != 0) || y % 400 == 0

/-- Day number of January 1 of year `y`: ECMA-262 `DayFromYear`,
`365*(y-1970) + floor((y-1969)/4) - floor((y-1901)/100) +
floor((y-1601)/400)` (Lean's `Int` division is floor division for
positive divisors). -/
def dayFromYear (y : Int) : Int :=
  365 * (y - 1970) + (y - 1969) / 4 - (y - 1901) / 100 + (y - 1601) / 400

/-- The extra day a leap year contributes from March on. -/
def leapDays (leap : Bool) : Int := if leap then 1 else 0

/-- Days in year `y` before the first day of 0-based month `m`: the
cumulative month-length table of ECMA-262 (`InLeapYear` adds one from
March on).  Only ever applied to `m` between 0 and 11. -/
def dayFromMonth (m : Int) (leap : Bool) : Int :=
  if m = 0 then 0
  else if m = 1 then 31
  else if m = 2 then 59 + leapDays leap
  else if m = 3 then 90 + leapDays leap
  else if m = 4 then 120 + leapDays leap
  else if m = 5 then 151 + leapDays leap
  else if m = 6 then 181 + leapDays leap
  else if m = 7 then 212 + leapDays leap
  else if m = 8 then 243 + leapDays leap
  else if m = 9 then 273 + leapDays leap
  else if m = 10 then 304 + leapDays leap
  else 334 + leapDays leap

/-- ECMA-262 `MakeDay(year, month, date)` (in days): normalize the
0-based month into the year, then add the month start and the 1-based
day offset.  `date.setMonth(m)` sets the timestamp to
`MakeDay(yearOf t, m, dateOf t)`, and `date.setDate(d)` to
`MakeDay(yearOf t, monthOf t, d)`, which is linear in `d`. -/
def makeDay (year month date : Int) : Int :=
  dayFromYear (year + month / 12)
    + dayFromMonth (month % 12) (isLeapYear (year + month / 12)) + date - 1

/-- ECMA-262 `YearFromTime` (the year `y` with
`dayFromYear y ≤ t < dayFromYear (y+1)`), computed by the standard
civil-from-days era/year-of-era arithmetic. -/
def yearFromDay (t : Int) : Int :=
  let z := t + 719468
  let era := z / 146097
  let doe := z - era * 146097
  let yoe := (doe - doe / 1460 + doe / 36524 - doe / 146096) / 365
  let y := yoe + era * 400
  let doy := doe - (365 * yoe + yoe / 4 - yoe / 100)
  let mp := (5 * doy + 2) / 153
  if mp < 10 then y else y + 1

/-- ECMA-262 `DayWithinYear`: offset of day `t` within its year. -/
def dayWithinYear (t : Int) : Int := t - dayFromYear (yearFromDay t)

/-- The range table of ECMA-262 `MonthFromTime`, as a function of the
day-within-year offset and the leap flag. -/
def monthFromDoy (d : Int) (leap : Bool) : Int :=
  if d < 31 then 0
  else if d < 59 + leapDays leap then 1
  else if d < 90 + leapDays leap then 2
  else if d < 120 + leapDays leap then 3
  else if d < 151 + leapDays leap then 4
  else if d < 181 + leapDays leap then 5
  else if d < 212 + leapDays leap then 6
  else if d < 243 + leapDays leap then 7
  else if d < 273 + leapDays leap then 8
  else if d < 304 + leapDays leap then 9
  else if d < 334 + leapDays leap then 10
  else 11

/-- ECMA-262 `MonthFromTime`: the 0-based month of day `t`. -/
def monthFromDay (t : Int) : Int :=
  monthFromDoy (dayWithinYear t) (isLeapYear (yearFromDay t))

/-- ECMA-262 `DateFromTime`: the 1-based day-of-month of day `t`
(day-within-year minus the month start, plus one). -/
def dateFromDay (t : Int) : Int :=
  dayWithinYear t - dayFromMonth (monthFromDay t) (isLeapYear (yearFromDay t)) + 1

/-- One iteration of the `while` loop of `getNextRecurrenceDate`
(src/src/App.jsx lines 11-19): `date.setDate(date.getDate() + 1)` adds
one day to the timestamp, `+ 7` adds seven, and
`date.setMonth(date.getMonth() + 1)` rebuilds the timestamp from the
extracted fields with the month incremented. -/
def advanceDate : Recur → Int → Int
  | .daily, t => t + 1
  | .weekly, t => t + 7
  | .monthly, t => makeDay (yearFromDay t) (monthFromDay t + 1) (dateFromDay t)

theorem leapDays_bounds (b : Bool) : 0 ≤ leapDays b ∧ leapDays b ≤ 1 := by
  cases b <;> simp [leapDays]

/-- The month range table always yields a month between 0 and 11. -/
theorem monthFromDoy_bounds (d : Int) (b : Bool) :
    0 ≤ monthFromDoy d b ∧ monthFromDoy d b < 12 := by
  rw [monthFromDoy]
  by_cases h1 : d < 31
  · rw [if_pos h1]; omega
  rw [if_neg h1]
  by_cases h2 : d < 59 + leapDays b
  · rw [if_pos h2]; omega
  rw [if_neg h2]
  by_cases h3 : d < 90 + leapDays b
  · rw [if_pos h3]; omega
  rw [if_neg h3]
  by_cases h4 : d < 120 + leapDays b
  · rw [if_pos h4]; omega
  rw [if_neg h4]
  by_cases h5 : d < 151 + leapDays b
  · rw [if_pos h5]; omega
  rw [if_neg h5]
  by_cases h6 : d < 181 + leapDays b
  · rw [if_pos h6]; omega
  rw [if_neg h6]
  by_cases h7 : d < 212 + leapDays b
  · rw [if_pos h7]; omega
  rw [if_neg h7]
  by_cases h8 : d < 243 + leapDays b
  · rw [if_pos h8]; omega
  rw [if_neg h8]
  by_cases h9 : d < 273 + leapDays b
  · rw [if_pos h9]; omega
  rw [if_neg h9]
  by_cases h10 : d < 304 + leapDays b
  · rw [if_pos h10]; omega
  rw [if_neg h10]
  by_cases h11 : d < 334 + leapDays b
  · rw [if_pos h11]; omega
  rw [if_neg h11]
  omega

/-- The 0-based month extracted from a day number lies in `[0, 12)`. -/
theorem monthFromDay_bounds (t : Int) : 0 ≤ monthFromDay t ∧ monthFromDay t < 12 := by
  rw [monthFromDay]
  exact monthFromDoy_bounds _ _

/-- Rebuilding a day number from its extracted year, month and
day-of-month fields gives the day number back (`MakeDay` inverts the
field extraction). -/
theorem makeDay_fields (t : Int) :
    makeDay (yearFromDay t) (monthFromDay t) (dateFromDay t) = t := by
  obtain ⟨h0, h1⟩ := monthFromDay_bounds t
  rw [makeDay, dateFromDay, dayWithinYear]
  have hdiv : monthFromDay t / 12 = 0 := by omega
  have hmod : monthFromDay t % 12 = monthFromDay t := by omega
  rw [hdiv, hmod, add_zero]
  ring

/-- January 1 of year `y + 1` is at least 364 days after January 1 of
year `y`. -/
theorem dayFromYear_succ_ge (y : Int) : dayFromYear y + 364 ≤ dayFromYear (y + 1) := by
  rw [dayFromYear, dayFromYear]
  omega

/-- Advancing the 0-based month of `MakeDay` by one strictly increases
the day number, for months 0 through 11 (the month lengths are
positive, and December of year `y` ends before January of `y+1`). -/
theorem makeDay_month_succ (y m d : Int) (h0 : 0 ≤ m) (h1 : m < 12) :
    makeDay y m d < makeDay y (m + 1) d := by
  have hl := leapDays_bounds (isLeapYear y)
  have hl1 := leapDays_bounds (isLeapYear (y + 1))
  have hy := dayFromYear_succ_ge y
  rw [makeDay, makeDay]
  interval_cases m <;> norm_num [dayFromMonth] <;> omega

/-- Each loop iteration of the recurrence calculator strictly increases
the date, for every period. -/
theorem advanceDate_gt (r : Recur) (t : Int) : t < advanceDate r t := by
  cases r with
  | daily => rw [advanceDate]; omega
  | weekly => rw [advanceDate]; omega
  | monthly =>
    rw [advanceDate]
    have h := makeDay_month_succ (yearFromDay t) (monthFromDay t) (dateFromDay t)
      (monthFromDay_bounds t).1 (monthFromDay_bounds t).2
    rwa [makeDay_fields t] at h

/-- The `while (date < now)` loop of `getNextRecurrenceDate`
(src/src/App.jsx lines 11-19): advance the date by one period until it
is no longer strictly before the current time.  The date is a day
number, the current time a millisecond timestamp. -/
def recurLoop (recurrence : Recur) (nowMs : Int) (date : Int) : Int :=
  if date * msPerDay < nowMs then recurLoop recurrence nowMs (advanceDate recurrence date)
  else date
termination_by (nowMs - date * msPerDay).toNat
decreasing_by
  have h := advanceDate_gt recurrence date
  simp only [msPerDay] at *
  omega

/-- Embedding of `getNextRecurrenceDate(startDate, recurrence)`
(src/src/App.jsx lines 6-21), with the impure `new Date()` made the
explicit parameter `nowMs`.  The JS falsy check `!startDate ||
!recurrence` (absent value or empty string) is the `none` cases; the
final `toISOString().split('T')[0]` formats the resulting day number,
so the model returns the day number itself. -/
def getNextRecurrenceDate (startDate : Option Int) (recurrence : Option Recur)
    (nowMs : Int) : Option Int :=
  match startDate, recurrence with
  | none, _ => none
  | some _, none => none
  | some d, some r => some (recurLoop r nowMs d)

/-- The loop returns the first iterate of the period-advance that is
not strictly in the past: it is an iterate, it is not in the past, and
every earlier iterate is in the past. -/
theorem recurLoop_spec (r : Recur) (nowMs : Int) : ∀ t : Int,
    ∃ k : Nat, recurLoop r nowMs t = (advanceDate r)^[k] t ∧
      ¬ ((advanceDate r)^[k] t * msPerDay < nowMs) ∧
      ∀ j < k, (advanceDate r)^[j] t * msPerDay < nowMs := by
  intro t
  induction t using recurLoop.induct r nowMs with
  | case1 t h ih =>
    obtain ⟨k, hk, hnot, hall⟩ := ih
    refine ⟨k + 1, ?_, ?_, ?_⟩
    · rw [recurLoop, if_pos h, hk, Function.iterate_succ_apply]
    · rw [Function.iterate_succ_apply]; exact hnot
    · intro j hj
      cases j with
      | zero => simpa using h
      | succ j' =>
        rw [Function.iterate_succ_apply]
        exact hall j' (by omega)
  | case2 t h =>
    refine ⟨0, by rw [recurLoop, if_neg h]; simp, by simpa using h, ?_⟩
    intro j hj
    exact absurd hj (Nat.not_lt_zero j)

/-- Later iterates of the period-advance are at least as late. -/
theorem iterate_advanceDate_le (r : Recur) (t : Int) (j n : Nat) :
    (advanceDate r)^[j] t ≤ (advanceDate r)^[j + n] t := by
  induction n with
  | zero => simp
  | succ n ih =>
    rw [show j + (n + 1) = (j + n) + 1 by omega, Function.iterate_succ_apply']
    exact le_trans ih (le_of_lt (advanceDate_gt r _))

/-- C5: the recurrence calculator returns `none` when either argument
is absent; otherwise it returns an iterate of the period-advance
(`k ≥ 0` whole day/week/calendar-month steps from the start date) that
is not strictly in the past and is the smallest such iterate; and a
start date that is already not in the past is returned unmodified. -/
theorem claim_C5 :
    (∀ (r : Option Recur) (nowMs : Int), getNextRecurrenceDate none r nowMs = none) ∧
    (∀ (d : Option Int) (nowMs : Int), getNextRecurrenceDate d none nowMs = none) ∧
    (∀ (d : Int) (r : Recur) (nowMs : Int), ∃ k : Nat,
      getNextRecurrenceDate (some d) (some r) nowMs = some ((advanceDate r)^[k] d) ∧
      ¬ ((advanceDate r)^[k] d * msPerDay < nowMs) ∧
      (∀ j : Nat, ¬ ((advanceDate r)^[j] d * msPerDay < nowMs) →
        (advanceDate r)^[k] d ≤ (advanceDate r)^[j] d)) ∧
    (∀ (d : Int) (r : Recur) (nowMs : Int), ¬ (d * msPerDay < nowMs) →
      getNextRecurrenceDate (some d) (some r) nowMs = some d) := by
  refine ⟨fun r nowMs => rfl, fun d nowMs => by cases d <;> rfl, ?_, ?_⟩
  · intro d r nowMs
    obtain ⟨k, hk, hnot, hall⟩ := recurLoop_spec r nowMs d
    refine ⟨k, ?_, hnot, ?_⟩
    · show some (recurLoop r nowMs d) = _
      rw [hk]
    · intro j hj
      rcases Nat.lt_or_ge j k with hlt | hle
      · exact absurd (hall j hlt) hj
      · have := iterate_advanceDate_le r d k (j - k)
        rwa [show k + (j - k) = j by omega] at this
  · intro d r nowMs h
    show some (recurLoop r nowMs d) = some d
    rw [recurLoop, if_neg h]

theorem claim_C5_witness :
    ¬ ((5 : Int) * msPerDay < 0) ∧
      getNextRecurrenceDate (some 5) (some Recur.daily) 0 = some 5 :=
  ⟨by norm_num [msPerDay], claim_C5.2.2.2 5 Recur.daily 0 (by norm_num [msPerDay])⟩


/-- Actual start index of a JS `splice(start, ...)` call on an array of
length `len`: negative starts count from the end (clamped at 0),
nonnegative starts are clamped at `len`. -/
def jsSpliceStart (len : Nat) (i : Int) : Nat :=
  if i < 0 then (len + i).toNat else min i.toNat len

/-- JS `findIndex`: the index of the first element satisfying `p`, or
`-1` when there is none. -/
def jsFindIndex {α : Type} (p : α → Bool) (l : List α) : Int :=
  match l.findIdx? p with
  | some n => (n : Int)
  | none => -1

/-- JS `l.splice(i, 1)`: the array with (at most) one element removed
at the actual start index, together with the removed element
(`none` when the start index is past the end and nothing is removed,
in which case destructuring the returned array yields `undefined`). -/
def spliceRemoveOne {α : Type} (l : List α) (i : Int) : List α × Option α :=
  (l.take (jsSpliceStart l.length i) ++ l.drop (jsSpliceStart l.length i + 1),
    l[jsSpliceStart l.length i]?)

/-- JS `l.splice(i, 0, x)`: insert `x` at the actual start index. -/
def spliceInsertOne {α : Type} (l : List α) (i : Int) (x : α) : List α :=
  List.insertIdx (jsSpliceStart l.length i) x l

/-- Embedding of the `REORDER_TODOS` branch (src/src/App.jsx lines
171-178) over `Option Task` elements: both indices are looked up on the
input array, one element is spliced out at `dragIndex` and spliced back
in at `dropIndex`.  An element is `some` task; the `none` element
models the `undefined` that `const [draggedTodo] = newTodos.splice(dragIndex, 1)`
destructures when the splice removed nothing (only possible on the
empty array), which JS then inserts into the result. -/
def reorderRoots (state : List Task) (dragId dropId : Nat) : List (Option Task) :=
  spliceInsertOne
    (spliceRemoveOne (state.map some) (jsFindIndex (fun t => t.id == dragId) state)).1
    (jsFindIndex (fun t => t.id == dropId) state)
    (spliceRemoveOne (state.map some) (jsFindIndex (fun t => t.id == dragId) state)).2.join

/-- The task transformation shared by the `TOGGLE_TODO` and
`TOGGLE_NESTED_TASK` branches (src/src/App.jsx lines 120-134 and
135-148, where it is inlined twice verbatim): flip `completed`; when
the task becomes completed and has a recurrence (a truthy string),
recompute `dueDate` and `startDate` through the recurrence calculator;
and cascade the new flag to every descendant. -/
def toggleTask (nowMs : Int) (todo : Task) : Task :=
  let newCompletedState := !todo.completed
  let newDueDate :=
    if newCompletedState && todo.data.recurrence.isSome then
      getNextRecurrenceDate todo.data.dueDate todo.data.recurrence nowMs
    else todo.data.dueDate
  let newStartDate :=
    if newCompletedState && todo.data.recurrence.isSome then
      getNextRecurrenceDate todo.data.startDate todo.data.recurrence nowMs
    else todo.data.startDate
  Task.mk
    { todo.data with
      completed := newCompletedState
      dueDate := newDueDate
      startDate := newStartDate }
    (toggleAllNestedTasks todo.subtasks newCompletedState)

/-- The action interface of `todoReducer` (src/src/App.jsx lines
83-189).  Ids and creation timestamps generated impurely inside the
`ADD` branches (`crypto.randomUUID()`, `new Date()`) are carried by the
action; `updates` of the `UPDATE` actions is the shallow merge
`{ ...task, ...updates }` as a patch of the flat fields (callers never
include `subtasks` or other structural keys); `unknown` stands for any
unrecognized action type, handled by the reducer's `default`. -/
inductive Action where
  | addTodo (id : Nat) (createdAt : Int) (text : String) (dueDate : Option Int)
      (priority : String) (tags : List String) (description : Option String)
  | addNestedTask (idPath : List Nat) (id : Nat) (createdAt : Int) (text : String)
      (dueDate : Option Int) (startDate : Option Int) (recurrence : Option Recur)
      (priority : String) (tags : List String) (description : Option String)
  | toggleTodo (id : Nat)
  | toggleNestedTask (idPath : List Nat)
  | deleteTodo (id : Nat)
  | deleteNestedTask (idPath : List Nat)
  | updateTodo (id : Nat) (updates : TaskData → TaskData)
  | updateNestedTask (idPath : List Nat) (updates : TaskData → TaskData)
  | reorderTodos (dragId : Nat) (dropId : Nat)
  | clearCompleted
  | importTodos (payload : List Task)
  | unknown

/-- Embedding of `todoReducer(state, action)` (src/src/App.jsx lines
83-189), with the current time `nowMs` passed explicitly (it is read
impurely by the toggle branches through `getNextRecurrenceDate`).
Branch notes:
* `ADD_TODO` destructures `startDate` and `recurrence` from the
  payload but does not put them on the new root task, hence the `none`
  fields.
* `DELETE_NESTED_TASK` on the empty path has `targetId = undefined` in
  JS, which matches no id, so the filter keeps everything: `state`.
* `REORDER_TODOS` goes through `reorderRoots`; `reduceOption` drops a
  `none` element, which only arises on the empty forest, where the JS
  result is the corrupt singleton `[undefined]` that `List Task`
  cannot represent (`reorderRoots` itself models that case exactly).
* the `default` branch returns the state unchanged. -/
def todoReducer (nowMs : Int) (state : List Task) : Action → List Task
  | .addTodo i c text dueDate priority tags description =>
      Task.mk
        { id := i, text := text, completed := false, createdAt := c, dueDate := dueDate,
          startDate := none, priority := priority, recurrence := none, tags := tags,
          description := description } [] :: state
  | .addNestedTask idPath i c text dueDate startDate recurrence priority tags description =>
      findTaskAndUpdate state idPath fun parentTask =>
        Task.mk parentTask.data
          (Task.mk
            { id := i, text := text, completed := false, createdAt := c, dueDate := dueDate,
              startDate := startDate, priority := priority, recurrence := recurrence,
              tags := tags, description := description } [] :: parentTask.subtasks)
  | .toggleTodo i =>
      state.map fun todo => if todo.id == i then toggleTask nowMs todo else todo
  | .toggleNestedTask idPath =>
      findTaskAndUpdate state idPath fun task => toggleTask nowMs task
  | .deleteTodo i => state.filter fun todo => !(todo.id == i)
  | .deleteNestedTask idPath =>
      match idPath.getLast? with
      | none => state
      | some targetId =>
          if idPath.dropLast.isEmpty then state.filter fun task => !(task.id == targetId)
          else
            findTaskAndUpdate state idPath.dropLast fun parentTask =>
              Task.mk parentTask.data
                (parentTask.subtasks.filter fun task => !(task.id == targetId))
  | .updateTodo i updates =>
      state.map fun todo =>
        if todo.id == i then Task.mk (updates todo.data) todo.subtasks else todo
  | .updateNestedTask idPath updates =>
      findTaskAndUpdate state idPath fun task => Task.mk (updates task.data) task.subtasks
  | .reorderTodos dragId dropId => (reorderRoots state dragId dropId).reduceOption
  | .clearCompleted =>
      (state.filter fun todo => !todo.completed).map fun todo =>
        Task.mk todo.data (clearNestedCompleted todo.subtasks)
  | .importTodos payload => payload
  | .unknown => state

/-- Whether the JS `todoReducer` returns its input array object itself
(the reference the history wrapper compares with `===`): every handled
branch builds a fresh array (`map`, `filter`, array literals, or the
freshly parsed `IMPORT_TODOS` payload), so only the `default` branch
does. -/
def returnsSameArray : Action → Bool
  | .unknown => true
  | _ => false

/-- `todoReducer` together with the reference-identity information the
history wrapper observes. -/
def todoReducerRef (nowMs : Int) (state : List Task) (action : Action) : List Task × Bool :=
  (todoReducer nowMs state action, returnsSameArray action)


/-- Every node of the forest produced by the cascading toggle carries
the new `completed` value, at every depth. -/
theorem toggleAllNestedTasks_completed (b : Bool) :
    ∀ ts : List Task, ∀ u ∈ allTasksF (toggleAllNestedTasks ts b), u.completed = b := by
  intro ts
  induction ts using forestInduction with
  | h1 => simp [toggleAllNestedTasks]
  | h2 d sub ts ih1 ih2 =>
    intro u hu
    simp only [toggleAllNestedTasks, allTasksF_cons, List.mem_cons, List.mem_append] at hu
    rcases hu with h | h | h
    · subst h; rfl
    · exact ih1 u h
    · exact ih2 u h

/-- The cascading toggle changes nothing but `completed` flags: erasing
the flags on its result gives back the flag-erased input. -/
theorem stripCompleted_toggleAllNestedTasks (b : Bool) :
    ∀ ts : List Task, stripCompleted (toggleAllNestedTasks ts b) = stripCompleted ts := by
  intro ts
  induction ts using forestInduction with
  | h1 => simp [toggleAllNestedTasks]
  | h2 d sub ts ih1 ih2 =>
    simp only [toggleAllNestedTasks, stripCompleted, ih1, ih2]

/-- Finding by an id predicate commutes with mapping an id-preserving
function over the level. -/
theorem find?_map_of_id_eq (p : Nat → Bool) (h : Task → Task)
    (hh : ∀ t, (h t).id = t.id) (l : List Task) :
    (l.map h).find? (fun t => p t.id) = (l.find? fun t => p t.id).map h := by
  induction l with
  | nil => rfl
  | cons t ts ih =>
    simp only [List.map_cons, List.find?_cons]
    rw [hh]
    cases hp : p t.id <;> simp [ih]

/-- `toggleTask` preserves the task's id. -/
theorem toggleTask_id (nowMs : Int) (t : Task) : (toggleTask nowMs t).id = t.id := rfl

theorem toggleTask_completed (nowMs : Int) (t : Task) :
    (toggleTask nowMs t).completed = !t.completed := rfl

theorem toggleTask_subtasks (nowMs : Int) (t : Task) :
    (toggleTask nowMs t).subtasks = toggleAllNestedTasks t.subtasks (!t.completed) := rfl

/-- Updating along a path with an id-preserving function moves the
resolved task through that function: resolution after the update finds
the image of the task resolution found before it. -/
theorem resolvePath_findTaskAndUpdate (g : Task → Task) (hg : ∀ t, (g t).id = t.id) :
    ∀ (p : List Nat) (s : List Task),
      resolvePath (findTaskAndUpdate s p g) p = (resolvePath s p).map g
  | [], s => by simp [resolvePath]
  | [x], s => by
    simp only [findTaskAndUpdate, resolvePath]
    rw [find?_map_of_id_eq (fun i => i == x) _ (fun t => by
      by_cases hid : (t.id == x) = true
      · rw [if_pos hid]; exact hg t
      · rw [if_neg hid])]
    cases hf : s.find? fun t => t.id == x with
    | none => rfl
    | some t =>
      have hid := List.find?_some hf
      simp only [Option.map_some']
      rw [if_pos hid]
  | c :: r :: rest, s => by
    simp only [findTaskAndUpdate, resolvePath]
    rw [find?_map_of_id_eq (fun i => i == c) _ (fun t => by
      by_cases hid : (t.id == c) = true
      · rw [if_pos hid]; rfl
      · rw [if_neg hid])]
    cases hf : s.find? fun t => t.id == c with
    | none => rfl
    | some t =>
      have hid := List.find?_some hf
      rw [Option.map_some']
      show resolvePath (if (t.id == c) = true then
        Task.mk t.data (findTaskAndUpdate t.subtasks (r :: rest) g) else t).subtasks
        (r :: rest) = _
      rw [if_pos hid, Task.subtasks_mk]
      exact resolvePath_findTaskAndUpdate g hg (r :: rest) t.subtasks

/-- The `TOGGLE_TODO` branch is the path update of the singleton path
by the shared toggle transformation. -/
theorem toggleTodo_as_findTaskAndUpdate (nowMs : Int) (s : List Task) (i : Nat) :
    todoReducer nowMs s (.toggleTodo i) = findTaskAndUpdate s [i] (toggleTask nowMs) := rfl

/-- C4: for every forest and every id (respectively path) resolving to
a task `T`, `TOGGLE_TODO` (respectively `TOGGLE_NESTED_TASK`) flips
`T`'s `completed` flag and sets `completed` of every node of `T`'s
subtree to the new value, regardless of each descendant's prior value;
nothing but `completed` flags changes in the subtree. -/
theorem claim_C4 :
    (∀ (nowMs : Int) (s : List Task) (i : Nat) (t : Task),
      resolvePath s [i] = some t →
      ∃ t', resolvePath (todoReducer nowMs s (.toggleTodo i)) [i] = some t' ∧
        t'.completed = !t.completed ∧
        (∀ u ∈ allTasksF t'.subtasks, u.completed = !t.completed) ∧
        stripCompleted t'.subtasks = stripCompleted t.subtasks) ∧
    (∀ (nowMs : Int) (s : List Task) (p : List Nat) (t : Task),
      resolvePath s p = some t →
      ∃ t', resolvePath (todoReducer nowMs s (.toggleNestedTask p)) p = some t' ∧
        t'.completed = !t.completed ∧
        (∀ u ∈ allTasksF t'.subtasks, u.completed = !t.completed) ∧
        stripCompleted t'.subtasks = stripCompleted t.subtasks) := by
  have key : ∀ (nowMs : Int) (s : List Task) (p : List Nat) (t : Task),
      resolvePath s p = some t →
      ∃ t', resolvePath (findTaskAndUpdate s p (toggleTask nowMs)) p = some t' ∧
        t'.completed = !t.completed ∧
        (∀ u ∈ allTasksF t'.subtasks, u.completed = !t.completed) ∧
        stripCompleted t'.subtasks = stripCompleted t.subtasks := by
    intro nowMs s p t hres
    refine ⟨toggleTask nowMs t, ?_, toggleTask_completed nowMs t, ?_, ?_⟩
    · rw [resolvePath_findTaskAndUpdate (toggleTask nowMs) (toggleTask_id nowMs) p s, hres,
        Option.map_some']
    · rw [toggleTask_subtasks]
      exact toggleAllNestedTasks_completed (!t.completed) t.subtasks
    · rw [toggleTask_subtasks]
      exact stripCompleted_toggleAllNestedTasks (!t.completed) t.subtasks
  constructor
  · intro nowMs s i t hres
    rw [toggleTodo_as_findTaskAndUpdate]
    exact key nowMs s [i] t hres
  · intro nowMs s p t hres
    exact key nowMs s p t hres

theorem claim_C4_witness :
    resolvePath [Task.mk (sampleData 1) [Task.mk (sampleData 2) []]] [1]
        = some (Task.mk (sampleData 1) [Task.mk (sampleData 2) []]) ∧
      ∃ t', resolvePath
          (todoReducer 0 [Task.mk (sampleData 1) [Task.mk (sampleData 2) []]] (.toggleTodo 1))
          [1] = some t' ∧
        t'.completed = !(Task.mk (sampleData 1) [Task.mk (sampleData 2) []]).completed ∧
        (∀ u ∈ allTasksF t'.subtasks,
          u.completed = !(Task.mk (sampleData 1) [Task.mk (sampleData 2) []]).completed) ∧
        stripCompleted t'.subtasks
          = stripCompleted (Task.mk (sampleData 1) [Task.mk (sampleData 2) []]).subtasks :=
  ⟨by simp [resolvePath, sampleData],
    claim_C4.1 0 _ 1 _ (by simp [resolvePath, sampleData])⟩

/-- The inner recursion of `CLEAR_COMPLETED` computes exactly the
specification's clearing function. -/
theorem clearNestedCompleted_eq_spec :
    ∀ ts : List Task, clearNestedCompleted ts = specClearCompleted ts := by
  intro ts
  induction ts using forestInduction with
  | h1 => simp [clearNestedCompleted, specClearCompleted]
  | h2 d sub ts ih1 ih2 =>
    simp only [clearNestedCompleted, specClearCompleted, ih1, ih2]
    cases hc : d.completed <;> simp [hc]

/-- No node of the cleared forest is completed, at any depth. -/
theorem clearNestedCompleted_not_completed :
    ∀ ts : List Task, ∀ u ∈ allTasksF (clearNestedCompleted ts), u.completed = false := by
  intro ts
  induction ts using forestInduction with
  | h1 => simp [clearNestedCompleted]
  | h2 d sub ts ih1 ih2 =>
    intro u hu
    rw [clearNestedCompleted] at hu
    by_cases hc : d.completed = true
    · rw [if_neg (by simp [hc])] at hu
      exact ih2 u hu
    · rw [if_pos (by simp [hc])] at hu
      simp only [allTasksF_cons, List.mem_cons, List.mem_append] at hu
      rcases hu with h | h | h
      · subst h
        simp only [Task.completed_mk]
        simpa using hc
      · exact ih1 u h
      · exact ih2 u h

/-- The two-stage top level of `CLEAR_COMPLETED` (filter the roots,
then clear inside the survivors) equals the specification's uniform
recursion. -/
theorem clearCompleted_top_eq_spec :
    ∀ s : List Task,
      ((s.filter fun todo => !todo.completed).map fun todo =>
        Task.mk todo.data (clearNestedCompleted todo.subtasks)) = specClearCompleted s := by
  intro s
  induction s with
  | nil => simp [specClearCompleted]
  | cons t ts ih =>
    cases t with
    | mk d sub =>
      by_cases hc : d.completed = true
      · simp [specClearCompleted, List.filter_cons, hc, ih]
      · simp only [Bool.not_eq_true] at hc
        rw [List.filter_cons, if_pos (by simp [hc]), List.map_cons]
        simp only [Task.data_mk, Task.subtasks_mk]
        rw [ih, clearNestedCompleted_eq_spec sub, specClearCompleted, if_neg (by simp [hc])]

/-- C2: `CLEAR_COMPLETED` removes every completed task at every depth:
its result is the forest in which a task survives if and only if
neither it nor any of its ancestors is completed (a completed task is
dropped with its whole subtree, children are not promoted), and no
completed node remains anywhere in the result. -/
theorem claim_C2 :
    (∀ (nowMs : Int) (s : List Task),
      todoReducer nowMs s .clearCompleted = specClearCompleted s) ∧
    (∀ (nowMs : Int) (s : List Task),
      ∀ u ∈ allTasksF (todoReducer nowMs s .clearCompleted), u.completed = false) := by
  have heq : ∀ (nowMs : Int) (s : List Task),
      todoReducer nowMs s .clearCompleted = specClearCompleted s := by
    intro nowMs s
    show ((s.filter fun todo => !todo.completed).map fun todo =>
      Task.mk todo.data (clearNestedCompleted todo.subtasks)) = specClearCompleted s
    exact clearCompleted_top_eq_spec s
  refine ⟨heq, ?_⟩
  intro nowMs s u hu
  rw [heq, ← clearNestedCompleted_eq_spec] at hu
  exact clearNestedCompleted_not_completed s u hu

theorem claim_C2_witness :
    todoReducer 0 [Task.mk { sampleData 3 with completed := true } [Task.mk (sampleData 4) []],
        Task.mk (sampleData 5) []] .clearCompleted
      = specClearCompleted [Task.mk { sampleData 3 with completed := true }
          [Task.mk (sampleData 4) []], Task.mk (sampleData 5) []] ∧
    Task.mk (sampleData 5) [] ∈ allTasksF (todoReducer 0
        [Task.mk { sampleData 3 with completed := true } [Task.mk (sampleData 4) []],
          Task.mk (sampleData 5) []] .clearCompleted) ∧
    (Task.mk (sampleData 5) []).completed = false :=
  ⟨claim_C2.1 0 _,
    by simp [todoReducer, clearNestedCompleted, sampleData],
    claim_C2.2 0
      [Task.mk { sampleData 3 with completed := true } [Task.mk (sampleData 4) []],
        Task.mk (sampleData 5) []]
      (Task.mk (sampleData 5) [])
      (by simp [todoReducer, clearNestedCompleted, sampleData])⟩


/-- Due-date comparison of `getFilteredAndSortedTodos` (src/src/App.jsx
lines 403-407) with `sortBy = 'dueDate'`, `sortOrder = 'asc'`:
`aVal = a.dueDate ? getTime(a.dueDate) : Infinity` and the comparator
returns `aVal - bVal`.  `dueLe a b` says the comparator is ≤ 0: a
present due date is before an absent one (`Infinity`), two present
ones compare by value, and two absent ones compare as
`Infinity - Infinity = NaN`, which the ECMA-262 `SortCompare` operation
treats as `+0` (equal). -/
def dueLe (a b : Task) : Bool :=
  match a.dueDate, b.dueDate with
  | some x, some y => decide (x ≤ y)
  | some _, none => true
  | none, some _ => false
  | none, none => true

/-- The due-date-ascending sort of `getFilteredAndSortedTodos`:
`Array.prototype.sort` with a consistent comparator produces a stable
array sorted with respect to it, which `mergeSort` implements. -/
def sortByDueDateAsc (todos : List Task) : List Task := todos.mergeSort dueLe

theorem dueLe_trans (a b c : Task) (hab : dueLe a b = true) (hbc : dueLe b c = true) :
    dueLe a c = true := by
  unfold dueLe at *
  cases ha : a.dueDate <;> cases hb : b.dueDate <;> cases hc : c.dueDate <;>
    simp_all <;> omega

theorem dueLe_total (a b : Task) : (dueLe a b || dueLe b a) = true := by
  unfold dueLe
  cases ha : a.dueDate <;> cases hb : b.dueDate <;> simp_all <;> omega

/-- C9: sorting by due date ascending places every task that has a due
date before every task that has no due date (absent due dates sort as
infinitely late), and tasks with due dates appear in non-decreasing
due-date order. -/
theorem claim_C9 (ts : List Task) :
    List.Pairwise (fun a b => a.dueDate = none → b.dueDate = none) (sortByDueDateAsc ts) ∧
    List.Pairwise (fun a b => ∀ x y, a.dueDate = some x → b.dueDate = some y → x ≤ y)
      (sortByDueDateAsc ts) := by
  have hs : List.Pairwise (fun a b => dueLe a b = true) (sortByDueDateAsc ts) :=
    List.sorted_mergeSort dueLe_trans dueLe_total ts
  constructor
  · refine hs.imp ?_
    intro a b h ha
    cases hb : b.dueDate with
    | none => rfl
    | some y =>
      rw [dueLe, ha, hb] at h
      cases h
  · refine hs.imp ?_
    intro a b h x y hx hy
    rw [dueLe, hx, hy] at h
    simpa using h

/-- Mapping commutes with insertion at an index. -/
theorem map_insertIdx {α β : Type} (f : α → β) :
    ∀ (n : Nat) (x : α) (l : List α),
      (List.insertIdx n x l).map f = List.insertIdx n (f x) (l.map f)
  | 0, x, l => by simp
  | n + 1, x, [] => by simp
  | n + 1, x, a :: l => by
    simp only [List.insertIdx_succ_cons, List.map_cons, map_insertIdx f n x l]

/-- The actual splice start is at most the array length. -/
theorem jsSpliceStart_le (len : Nat) (i : Int) : jsSpliceStart len i ≤ len := by
  rw [jsSpliceStart]
  split_ifs <;> omega

/-- On a non-empty array, the actual splice start of a `findIndex`
result (an index or `-1`) is a valid index. -/
theorem jsSpliceStart_findIndex_lt {α : Type} (p : α → Bool) (l : List α) (h : l ≠ []) :
    jsSpliceStart l.length (jsFindIndex p l) < l.length := by
  have hlen : 0 < l.length := List.length_pos.mpr h
  rw [jsFindIndex]
  cases hf : l.findIdx? p with
  | none =>
    rw [jsSpliceStart]
    simp only [if_pos (by omega : (-1 : Int) < 0)]
    omega
  | some k =>
    have hk : k < l.length := (List.findIdx?_eq_some_iff_findIdx_eq.mp hf).1
    rw [jsSpliceStart]
    split_ifs with hneg
    · omega
    · simp only [Int.toNat_ofNat]
      omega

/-- A list is a permutation of the element at any valid index consed
onto the removal of that index. -/
theorem perm_getElem_removeAt {α : Type} (l : List α) (i : Nat) (h : i < l.length) :
    l.Perm (l[i] :: (l.take i ++ l.drop (i + 1))) := by
  conv_lhs => rw [← List.take_append_drop i l, List.drop_eq_getElem_cons h]
  exact List.perm_middle

/-- C10: on a non-empty forest, `REORDER_TODOS` always produces a
permutation of the root tasks, whatever `dragId` and `dropId` are
(present among the roots or not); when `dragId` matches no root, the
task spliced out and reinserted is the last root; and on the empty
forest the splice destructures `undefined` and inserts it, so the
result is the corrupt singleton `[undefined]` rather than a permutation
of the roots. -/
theorem claim_C10 :
    (∀ (s : List Task) (dragId dropId : Nat), s ≠ [] →
      ∃ l' : List Task, reorderRoots s dragId dropId = l'.map some ∧ l'.Perm s) ∧
    (∀ (s : List Task) (dragId dropId : Nat), s ≠ [] →
      (∀ t ∈ s, (t.id == dragId) = false) →
      ∃ (n : Nat) (t : Task), s.getLast? = some t ∧
        reorderRoots s dragId dropId = List.insertIdx n (some t) (s.dropLast.map some)) ∧
    (∀ dragId dropId : Nat,
      reorderRoots [] dragId dropId = [none] ∧
      ¬ ∃ l' : List Task, reorderRoots [] dragId dropId = l'.map some ∧
        l'.Perm ([] : List Task)) := by
  have main : ∀ (s : List Task) (dragId dropId : Nat), s ≠ [] →
      ∀ di : Nat, di = jsSpliceStart (s.map some).length (jsFindIndex
        (fun t => t.id == dragId) s) →
      ∃ hdi : di < s.length,
        reorderRoots s dragId dropId
          = (List.insertIdx
              (jsSpliceStart ((s.take di ++ s.drop (di + 1)).map some).length
                (jsFindIndex (fun t => t.id == dropId) s))
              s[di] (s.take di ++ s.drop (di + 1))).map some := by
    intro s dragId dropId hne di hdi_def
    have hdi : di < s.length := by
      rw [hdi_def, List.length_map]
      exact jsSpliceStart_findIndex_lt _ s hne
    refine ⟨hdi, ?_⟩
    rw [reorderRoots, spliceRemoveOne, spliceInsertOne, ← hdi_def]
    have hjoin : ((s.map some)[di]?).join = some s[di] := by
      rw [List.getElem?_map, List.getElem?_eq_getElem hdi]
      rfl
    have hrest : (s.map some).take di ++ (s.map some).drop (di + 1)
        = (s.take di ++ s.drop (di + 1)).map some := by
      simp
    rw [hjoin, hrest, ← map_insertIdx]
  refine ⟨?_, ?_, ?_⟩
  · intro s dragId dropId hne
    obtain ⟨hdi, heq⟩ := main s dragId dropId hne _ rfl
    set di := jsSpliceStart (s.map some).length (jsFindIndex (fun t => t.id == dragId) s)
      with hdi_def
    refine ⟨_, heq, ?_⟩
    have hs2 : jsSpliceStart ((s.take di ++ s.drop (di + 1)).map some).length
        (jsFindIndex (fun t => t.id == dropId) s) ≤ (s.take di ++ s.drop (di + 1)).length :=
      le_of_le_of_eq
        (jsSpliceStart_le ((s.take di ++ s.drop (di + 1)).map some).length
          (jsFindIndex (fun t => t.id == dropId) s))
        (by simp)
    exact (List.perm_insertIdx _ _ hs2).trans (perm_getElem_removeAt s di hdi).symm
  · intro s dragId dropId hne habs
    have hf : s.findIdx? (fun t => t.id == dragId) = none :=
      List.findIdx?_eq_none_iff.mpr habs
    have hlen : 0 < s.length := List.length_pos.mpr hne
    have hIdx : jsFindIndex (fun t => t.id == dragId) s = -1 := by
      rw [jsFindIndex, hf]
    have hdi : jsSpliceStart (s.map some).length (jsFindIndex
        (fun t => t.id == dragId) s) = s.length - 1 := by
      rw [hIdx, List.length_map, jsSpliceStart, if_pos (by omega : (-1 : Int) < 0)]
      omega
    obtain ⟨hlt, heq⟩ := main s dragId dropId hne _ hdi.symm
    refine ⟨jsSpliceStart ((s.take (s.length - 1)
        ++ s.drop (s.length - 1 + 1)).map some).length
        (jsFindIndex (fun t => t.id == dropId) s), s[s.length - 1], ?_, ?_⟩
    · rw [List.getLast?_eq_getElem?, List.getElem?_eq_getElem hlt]
    · rw [heq]
      have hdrop : s.drop (s.length - 1 + 1) = [] := by
        apply List.drop_eq_nil_of_le
        omega
      rw [hdrop, List.append_nil, ← List.dropLast_eq_take]
      exact map_insertIdx some _ _ _
  · intro dragId dropId
    have hbase : reorderRoots [] dragId dropId = [none] := rfl
    refine ⟨hbase, ?_⟩
    rintro ⟨l', hl, -⟩
    rw [hbase] at hl
    cases l' with
    | nil => simp at hl
    | cons x xs => simp at hl


theorem claim_C10_witness :
    ([Task.mk (sampleData 1) []] : List Task) ≠ [] ∧
      ∃ l' : List Task, reorderRoots [Task.mk (sampleData 1) []] 9 9 = l'.map some ∧
        l'.Perm [Task.mk (sampleData 1) []] :=
  ⟨by simp, claim_C10.1 [Task.mk (sampleData 1) []] 9 9 (by simp)⟩

/-- State of the history wrapper produced by `undoable(reducer)`
(src/src/App.jsx lines 24-48): the recorded states and the index of the
present one.  The index is an `Int`, as in JS. -/
structure HistoryState (σ : Type) where
  history : List σ
  historyIndex : Int

/-- An action seen by the wrapper: `UNDO`, `REDO`, or any other action,
which is forwarded to the inner reducer. -/
inductive HistoryAction (α : Type) where
  | undo
  | redo
  | other (action : α)

/-- The present state `state.history[state.historyIndex]`
(src/src/App.jsx lines 38 and 196).  JS indexing out of range yields
`undefined`, which the inner reducer's default parameter turns back
into its default state (`reducer(undefined, …)`); `List.getD` with that
default models this (exactly so for nonnegative indices, and every
reachable index is in range by claim C8). -/
def presentState {σ : Type} (dflt : σ) (state : HistoryState σ) : σ :=
  state.history.getD state.historyIndex.toNat dflt

/-- One transition of the reducer returned by `undoable(reducer)`
(src/src/App.jsx lines 29-47).  The inner reducer returns its result
together with the `Bool` modelling JS reference identity of that result
with the input array (the `===` of line 39): when `true` the wrapper
returns its state unchanged, otherwise it truncates the history to
`[0..historyIndex]` (`slice(0, historyIndex + 1)`), appends the new
present, and points the index at the new last position. -/
def undoableStep {σ α : Type} (reducer : σ → α → σ × Bool) (dflt : σ)
    (state : HistoryState σ) : HistoryAction α → HistoryState σ
  | .undo => { state with historyIndex := max 0 (state.historyIndex - 1) }
  | .redo =>
      { state with
        historyIndex := min ((state.history.length : Int) - 1) (state.historyIndex + 1) }
  | .other action =>
      if (reducer (presentState dflt state) action).2 then state
      else
        { history := state.history.take (state.historyIndex.toNat + 1)
            ++ [(reducer (presentState dflt state) action).1],
          historyIndex := ((state.history.take (state.historyIndex.toNat + 1)).length : Int) }

/-- Dispatching a sequence of actions through the history wrapper. -/
def runActions {σ α : Type} (reducer : σ → α → σ × Bool) (dflt : σ)
    (state : HistoryState σ) (actions : List (HistoryAction α)) : HistoryState σ :=
  actions.foldl (undoableStep reducer dflt) state

/-- The state reached by feeding a sequence of actions directly through
the inner reducer. -/
def applyChain {σ α : Type} (reducer : σ → α → σ × Bool) : σ → List α → σ
  | s, [] => s
  | s, a :: as => applyChain reducer (reducer s a).1 as

/-- The successive states `[S0, S1, …, Sn]` of feeding a sequence of
actions through the inner reducer from `S0`. -/
def chainStates {σ α : Type} (reducer : σ → α → σ × Bool) : σ → List α → List σ
  | s, [] => [s]
  | s, a :: as => s :: chainStates reducer (reducer s a).1 as

/-- A sequence of actions is effective from a state when each of them
makes the inner reducer return a fresh array (no reference-identity
no-op), so that the wrapper records every one of them. -/
def Effective {σ α : Type} (reducer : σ → α → σ × Bool) : σ → List α → Prop
  | _, [] => True
  | s, a :: as => (reducer s a).2 = false ∧ Effective reducer (reducer s a).1 as

theorem chainStates_length {σ α : Type} (R : σ → α → σ × Bool) :
    ∀ (as : List α) (s : σ), (chainStates R s as).length = as.length + 1
  | [], s => rfl
  | a :: as, s => by simp [chainStates, chainStates_length R as]

theorem chainStates_getD {σ α : Type} (R : σ → α → σ × Bool) (dflt : σ) :
    ∀ (as : List α) (s : σ) (k : Nat), k ≤ as.length →
      (chainStates R s as).getD k dflt = applyChain R s (as.take k)
  | as, s, 0, _ => by cases as <;> simp [chainStates, applyChain]
  | [], _, k + 1, h => by simp at h
  | a :: as, s, k + 1, h => by
    rw [chainStates, List.getD_cons_succ, List.take_succ_cons, applyChain]
    exact chainStates_getD R dflt as (R s a).1 k (by simpa using h)

theorem chainStates_take {σ α : Type} (R : σ → α → σ × Bool) :
    ∀ (as : List α) (s : σ) (k : Nat), k ≤ as.length →
      (chainStates R s as).take (k + 1) = chainStates R s (as.take k)
  | as, s, 0, _ => by cases as <;> simp [chainStates]
  | [], _, k + 1, h => by simp at h
  | a :: as, s, k + 1, h => by
    rw [chainStates, List.take_succ_cons, List.take_succ_cons, chainStates]
    rw [chainStates_take R as (R s a).1 k (by simpa using h)]

/-- From a state whose history ends at the present index, an effective
action sequence appends exactly the successive inner-reducer states. -/
theorem runActions_other_chain {σ α : Type} (R : σ → α → σ × Bool) (dflt : σ) :
    ∀ (as : List α) (p : σ) (H : List σ), Effective R p as →
      runActions R dflt ⟨H ++ [p], (H.length : Int)⟩ (as.map .other)
        = ⟨H ++ chainStates R p as, ((H.length + as.length : Nat) : Int)⟩
  | [], p, H, _ => by simp [runActions, chainStates]
  | a :: as, p, H, heff => by
    obtain ⟨h1, h2⟩ := heff
    have hpresent : presentState dflt ⟨H ++ [p], (H.length : Int)⟩ = p := by
      rw [presentState]
      simp only [Int.toNat_ofNat, List.getD_eq_getElem?_getD, List.getElem?_concat_length,
        Option.getD_some]
    have hstep : undoableStep R dflt ⟨H ++ [p], (H.length : Int)⟩ (.other a)
        = ⟨(H ++ [p]) ++ [(R p a).1], (((H ++ [p]).length : Nat) : Int)⟩ := by
      rw [undoableStep, hpresent, if_neg (by rw [h1]; exact Bool.false_ne_true)]
      have htake : (H ++ [p]).take ((H.length : Int).toNat + 1) = H ++ [p] :=
        List.take_of_length_le (by simp)
      rw [htake]
    rw [List.map_cons, runActions, List.foldl_cons, hstep]
    have ih := runActions_other_chain R dflt as (R p a).1 (H ++ [p]) h2
    rw [runActions] at ih
    rw [ih, chainStates]
    simp [List.length_append, Nat.add_assoc, Nat.add_comm 1 as.length]

/-- C3 (history linearity): from history `[S0]` at index 0, dispatching
effective actions `A1..An` yields history `[S0, …, Sn]` (length `n+1`)
with index `n`; one `UNDO` keeps the history and moves the index to
`n-1`, so the present is `S(n-1)`; and dispatching a further effective
action `Am` after that `UNDO` truncates the states after the index and
appends, yielding history `[S0..S(n-1), Sm]` with index `n`. -/
theorem claim_C3 {σ α : Type} (R : σ → α → σ × Bool) (dflt : σ) (s0 : σ)
    (as : List α) (am : α) (hne : as ≠ [])
    (heff : Effective R s0 as)
    (heffm : (R (applyChain R s0 (as.take (as.length - 1))) am).2 = false) :
    runActions R dflt ⟨[s0], 0⟩ (as.map .other)
      = ⟨chainStates R s0 as, (as.length : Int)⟩ ∧
    (chainStates R s0 as).length = as.length + 1 ∧
    runActions R dflt ⟨[s0], 0⟩ (as.map .other ++ [.undo])
      = ⟨chainStates R s0 as, (as.length : Int) - 1⟩ ∧
    presentState dflt ⟨chainStates R s0 as, (as.length : Int) - 1⟩
      = applyChain R s0 (as.take (as.length - 1)) ∧
    runActions R dflt ⟨[s0], 0⟩ (as.map .other ++ [.undo, .other am])
      = ⟨chainStates R s0 (as.take (as.length - 1))
          ++ [(R (applyChain R s0 (as.take (as.length - 1))) am).1], (as.length : Int)⟩ := by
  have hn : 1 ≤ as.length := by
    cases as with
    | nil => exact absurd rfl hne
    | cons a as => simp
  have hA : runActions R dflt ⟨[s0], 0⟩ (as.map .other)
      = ⟨chainStates R s0 as, (as.length : Int)⟩ := by
    have := runActions_other_chain R dflt as s0 [] heff
    simpa using this
  have hB : runActions R dflt ⟨[s0], 0⟩ (as.map .other ++ [.undo])
      = ⟨chainStates R s0 as, (as.length : Int) - 1⟩ := by
    rw [runActions, List.foldl_append]
    have hA' := hA
    rw [runActions] at hA'
    rw [hA']
    show undoableStep R dflt ⟨chainStates R s0 as, (as.length : Int)⟩ .undo = _
    rw [undoableStep]
    have : max 0 ((as.length : Int) - 1) = (as.length : Int) - 1 :=
      max_eq_right (by omega)
    rw [this]
  have hC : presentState dflt ⟨chainStates R s0 as, (as.length : Int) - 1⟩
      = applyChain R s0 (as.take (as.length - 1)) := by
    rw [presentState]
    have h1 : ((as.length : Int) - 1).toNat = as.length - 1 := by omega
    rw [h1]
    exact chainStates_getD R dflt as s0 (as.length - 1) (by omega)
  refine ⟨hA, chainStates_length R as s0, hB, hC, ?_⟩
  rw [show as.map HistoryAction.other ++ [.undo, .other am]
    = (as.map HistoryAction.other ++ [.undo]) ++ [.other am] by simp]
  rw [runActions, List.foldl_append]
  have hB' := hB
  rw [runActions] at hB'
  rw [hB']
  show undoableStep R dflt ⟨chainStates R s0 as, (as.length : Int) - 1⟩ (.other am) = _
  rw [undoableStep, hC, if_neg (by rw [heffm]; exact Bool.false_ne_true)]
  have h1 : ((as.length : Int) - 1).toNat + 1 = (as.length - 1) + 1 := by omega
  rw [h1, chainStates_take R as s0 (as.length - 1) (by omega)]
  have h2 : (chainStates R s0 (as.take (as.length - 1))).length = as.length - 1 + 1 := by
    rw [chainStates_length]
    simp only [List.length_take]
    omega
  rw [h2]
  have h3 : ((as.length - 1 + 1 : Nat) : Int) = (as.length : Int) := by omega
  rw [h3]

theorem claim_C3_witness :
    Effective (fun (s : Nat) (_ : Unit) => (s + 1, false)) 0 [(), ()] ∧
    ((fun (s : Nat) (_ : Unit) => (s + 1, false))
        (applyChain (fun (s : Nat) (_ : Unit) => (s + 1, false)) 0
          ([(), ()].take ([(), ()].length - 1))) ()).2 = false ∧
    runActions (fun (s : Nat) (_ : Unit) => (s + 1, false)) 0 ⟨[0], 0⟩
        ([(), ()].map HistoryAction.other)
      = ⟨chainStates (fun (s : Nat) (_ : Unit) => (s + 1, false)) 0 [(), ()],
          (([(), ()] : List Unit).length : Int)⟩ :=
  ⟨⟨rfl, rfl, trivial⟩, rfl,
    (claim_C3 (fun (s : Nat) (_ : Unit) => (s + 1, false)) 0 0 [(), ()] ()
      (by simp) ⟨rfl, rfl, trivial⟩ rfl).1⟩


/-- A single wrapper transition preserves the index bounds
`0 ≤ historyIndex < length history`. -/
theorem undoableStep_bounds {σ α : Type} (reducer : σ → α → σ × Bool) (dflt : σ)
    (state : HistoryState σ) (action : HistoryAction α)
    (h1 : 0 ≤ state.historyIndex) (h2 : state.historyIndex < state.history.length) :
    0 ≤ (undoableStep reducer dflt state action).historyIndex ∧
    (undoableStep reducer dflt state action).historyIndex
      < (undoableStep reducer dflt state action).history.length := by
  cases action with
  | undo =>
    rw [undoableStep]
    refine ⟨le_max_left 0 _, ?_⟩
    have : max 0 (state.historyIndex - 1) ≤ state.historyIndex :=
      max_le h1 (by omega)
    exact lt_of_le_of_lt this h2
  | redo =>
    rw [undoableStep]
    constructor
    · exact le_min (by omega) (by omega)
    · show min ((state.history.length : Int) - 1) (state.historyIndex + 1)
        < ((state.history.length : Nat) : Int)
      exact lt_of_le_of_lt (min_le_left _ _) (by omega)
  | other a =>
    rw [undoableStep]
    split_ifs with hsame
    · exact ⟨h1, h2⟩
    · simp only [List.length_append, List.length_take, List.length_cons, List.length_nil]
      omega

/-- Wrapper transitions preserve the index bounds along any action
sequence. -/
theorem runActions_bounds {σ α : Type} (reducer : σ → α → σ × Bool) (dflt : σ) :
    ∀ (actions : List (HistoryAction α)) (state : HistoryState σ),
      0 ≤ state.historyIndex → state.historyIndex < state.history.length →
      0 ≤ (runActions reducer dflt state actions).historyIndex ∧
      (runActions reducer dflt state actions).historyIndex
        < (runActions reducer dflt state actions).history.length
  | [], state, h1, h2 => ⟨h1, h2⟩
  | a :: actions, state, h1, h2 => by
    obtain ⟨h1', h2'⟩ := undoableStep_bounds reducer dflt state a h1 h2
    exact runActions_bounds reducer dflt actions (undoableStep reducer dflt state a) h1' h2'

/-- C8: in every history state reachable from an initial state
`{history: [s0], historyIndex: 0}` by any sequence of actions (UNDO,
REDO or other), the index satisfies `0 ≤ historyIndex <
length history`. -/
theorem claim_C8 {σ α : Type} (reducer : σ → α → σ × Bool) (dflt : σ) (s0 : σ)
    (actions : List (HistoryAction α)) :
    0 ≤ (runActions reducer dflt ⟨[s0], 0⟩ actions).historyIndex ∧
    (runActions reducer dflt ⟨[s0], 0⟩ actions).historyIndex
      < (runActions reducer dflt ⟨[s0], 0⟩ actions).history.length :=
  runActions_bounds reducer dflt actions ⟨[s0], 0⟩ (by simp) (by simp)

/-- C1 fails as stated: `TOGGLE_TODO` with an id present nowhere in the
forest produces a state structurally equal to the present (the `map`
touches nothing), yet because the `map` allocates a fresh array the
`===` check of the wrapper does not fire, and a new (duplicate) history
entry is appended: the history grows from length 1 to length 2 and the
index moves to 1. -/
theorem claim_C1_counterexample :
    todoReducer 0 [Task.mk (sampleData 1) []] (.toggleTodo 2) = [Task.mk (sampleData 1) []] ∧
    (undoableStep (todoReducerRef 0) [] ⟨[[Task.mk (sampleData 1) []]], 0⟩
        (.other (.toggleTodo 2))).history
      = [[Task.mk (sampleData 1) []], [Task.mk (sampleData 1) []]] ∧
    (undoableStep (todoReducerRef 0) [] ⟨[[Task.mk (sampleData 1) []]], 0⟩
        (.other (.toggleTodo 2))).historyIndex = 1 := by
  refine ⟨?_, ?_, ?_⟩ <;>
    simp [todoReducer, undoableStep, todoReducerRef, presentState, returnsSameArray,
      sampleData, Task.id]

/-- C1 (amended): the wrapper treats an action as a no-op exactly when
the inner reducer returns its input array object itself (JS reference
identity, not structural equality); in that case history and index are
unchanged (the whole state is returned as is).  For `todoReducer`, the
reducer returns the same array exactly on unrecognized actions. -/
theorem claim_C1 :
    (∀ {σ α : Type} (reducer : σ → α → σ × Bool) (dflt : σ) (state : HistoryState σ)
      (action : α), (reducer (presentState dflt state) action).2 = true →
      undoableStep reducer dflt state (.other action) = state) ∧
    (∀ (nowMs : Int) (state : List Task) (action : Action),
      (todoReducerRef nowMs state action).2 = true ↔ action = Action.unknown) := by
  constructor
  · intro σ α reducer dflt state action h
    rw [undoableStep, if_pos h]
  · intro nowMs state action
    cases action <;> simp [todoReducerRef, returnsSameArray]

theorem claim_C1_witness :
    (todoReducerRef 0 (presentState [] ⟨[[]], 0⟩) Action.unknown).2 = true ∧
    undoableStep (todoReducerRef 0) [] ⟨[[]], 0⟩ (.other .unknown) = ⟨[[]], 0⟩ :=
  ⟨rfl, claim_C1.1 (todoReducerRef 0) [] ⟨[[]], 0⟩ Action.unknown rfl⟩

end Tudu
